import Mathlib

set_option maxHeartbeats 1000000

namespace Photons

/- Shallow embedding of the message-orchestration core of the photons
   repository: src/modules/photons_control/script.py (FromGenerator and its
   Runner, Pipeline, Repeater, FromGeneratorPerSerial, find_serials) and
   src/photons_transport/targets/base.py (Target.simplify).
   Errors are identified by natural numbers; device serials by strings;
   wall-clock durations by integers. -/

abbrev Error := Nat

abbrev Serial := String

/-- A special reference object, exposing the resolver capability used by
find_serials: find returns the serials located on the network, missing
says which identifiers were expected but never located.
The network is modelled as the list of serials reachable on it. -/
structure Resolver where
  find : List Serial → List Serial
  missing : List Serial → List Serial

/-- Modelled from the spec: photons_app.special.FoundSerials is not under
src/. Per spec section 4.7 a discovery based resolver finds the full device
population and reports nothing missing. -/
def FoundSerials : Resolver where
  find := fun network => network
  missing := fun _ => []

/-- Modelled from the spec: photons_app.special.HardCodedSerials is not under
src/. Per spec section 4.7 a hard-coded list resolver finds those of its
targets present on the network and reports as missing any target identifier
never located. -/
def HardCodedSerials (targets : List Serial) : Resolver where
  find := fun network => targets.filter (fun t => network.contains t)
  missing := fun found => targets.filter (fun t => !(found.contains t))

/-- The comma split the source applies to a string reference, mirroring the
Python str.split with a comma separator: splitting happens on the character
list, so an empty string gives one empty piece and adjacent commas give
empty pieces, as in Python. -/
def splitOnComma (s : String) : List String :=
  (s.data.splitOn ',').map (fun cs => String.mk cs)

/-- The reference argument accepted by find_serials: a SpecialReference,
a plain string, a list of strings, None, or sb.NotSpecified. -/
inductive Ref
  | special (r : Resolver)
  | str (s : String)
  | strList (l : List Serial)
  | noneRef
  | notSpecified

/-- Embedding of find_serials, script.py lines 15 to 38: anything that is not
a SpecialReference is first normalised (empty string, underscore, None and
NotSpecified become FoundSerials; a string is comma-split; the resulting list
becomes HardCodedSerials), then find is awaited and missing is asked of the
resolver for what was found. -/
def find_serials (reference : Ref) (network : List Serial) : List Serial × List Serial :=
  let resolver : Resolver :=
    match reference with
    | .special r => r
    | .noneRef => FoundSerials
    | .notSpecified => FoundSerials
    | .str s =>
        if s = "" ∨ s = "_" then FoundSerials
        else HardCodedSerials (splitOnComma s)
    | .strList l => HardCodedSerials l
  let serials := resolver.find network
  (serials, resolver.missing serials)

/- Target.simplify, src/photons_transport/targets/base.py lines 97 to 141.
   The first pass replaces every element exposing a simplified method by the
   object that method returns (an element exposing run_with is kept as is,
   run_with being checked first; any other element is kept as is).  The
   second pass buffers consecutive objects lacking run_with and wraps each
   buffered group in one item_kls call, yielding objects with run_with
   unwrapped as they are met. -/

/-- An object as seen by the grouping pass of Target.simplify: all that
matters there is whether it exposes run_with. -/
inductive FinalObj
  | withRunWith (id : Nat)
  | withoutRunWith (id : Nat)
deriving Repr, DecidableEq

/-- An element of the list given to Target.simplify: it either exposes
run_with (checked first), or exposes simplified (in which case the source
appends the object simplified returns), or is a plain message. -/
inductive SimplifyInput
  | plain (id : Nat)
  | runnable (id : Nat)
  | simplifiable (id : Nat) (result : FinalObj)
deriving Repr, DecidableEq

/-- The first for-loop of Target.simplify, building the final list. -/
def classify : SimplifyInput → FinalObj
  | .plain id => .withoutRunWith id
  | .runnable id => .withRunWith id
  | .simplifiable _ result => result

/-- Whether the object exposes run_with. -/
def FinalObj.hasRunWith : FinalObj → Bool
  | .withRunWith _ => true
  | .withoutRunWith _ => false

/-- What Target.simplify yields: either one item_kls wrapping a buffered
group, or an object exposing run_with passed through unchanged. -/
inductive SimplifyOut
  | itemGroup (group : List FinalObj)
  | exec (o : FinalObj)
deriving Repr, DecidableEq

/-- The second for-loop of Target.simplify with its trailing flush: buf
accumulates consecutive objects lacking run_with; meeting an object with
run_with flushes the buffer as one item_kls group before yielding the
object itself; a non-empty buffer is flushed at the end. -/
def groupLoop : List FinalObj → List FinalObj → List SimplifyOut
  | buf, [] => if buf.isEmpty then [] else [.itemGroup buf]
  | buf, p :: rest =>
      if p.hasRunWith then
        (if buf.isEmpty then [] else [.itemGroup buf]) ++ .exec p :: groupLoop [] rest
      else
        groupLoop (buf ++ [p]) rest

/-- Embedding of Target.simplify, base.py lines 97 to 141, on an input
already in list form (a non-list input is wrapped in a singleton list by
the source before this point). -/
def simplify (parts : List SimplifyInput) : List SimplifyOut :=
  groupLoop [] (parts.map classify)

/-- The objects an output of simplify carries, in order. -/
def SimplifyOut.contents : SimplifyOut → List FinalObj
  | .itemGroup g => g
  | .exec o => [o]

/-- True when the list never holds two adjacent itemGroup entries, so each
wrapped group is maximal. -/
def noAdjacentGroups : List SimplifyOut → Bool
  | .itemGroup _ :: .itemGroup _ :: _ => false
  | _ :: rest => noAdjacentGroups rest
  | [] => true

/- FromGenerator.Item.run, script.py lines 333 to 353: error aggregation.
   The source reads kwargs error_catcher; when it is None it sets do_raise
   and substitutes a fresh list; errors recorded during the run land in that
   list via hp.add_error; after the result stream is drained and the
   TaskHolder has awaited all spawned work, the finally clause raises
   RunErrors over list(set(error_catcher)) when do_raise is set and the list
   is non-empty.  The error_catcher_override hook is left at its default
   None here, as in every construction in this repository. -/

/-- The aggregate error raised by FromGenerator.Item.run; the source calls
the field _errors. -/
structure RunErrors where
  errors : List Error
deriving Repr, DecidableEq

/-- One observable event of a FromGenerator.Item.run invocation, in order:
results yielded to the caller, then the TaskHolder exit which awaits all
spawned work, then possibly one raised aggregate error. -/
inductive RunEvent
  | result (v : Nat)
  | unwound
  | raised (e : RunErrors)
deriving Repr, DecidableEq

/-- Whether a run event is a raised aggregate error. -/
def RunEvent.isRaised : RunEvent → Bool
  | .raised _ => true
  | _ => false

/-- Embedding of FromGenerator.Item.run, script.py lines 333 to 353.
callerCatcher is the error_catcher the caller supplied (none models the
Python None); results are the values the run yields to the caller; recorded
are the errors delivered to the effective error catcher during the run, in
order.  list(set(x)) of the source is modelled by dedup, with the set
equality stated in the theorem. -/
def itemRun (callerCatcher : Option (List Error)) (results : List Nat)
    (recorded : List Error) : List RunEvent :=
  let doRaise := callerCatcher.isNone
  let errorCatcher := callerCatcher.getD [] ++ recorded
  results.map RunEvent.result ++ [RunEvent.unwound] ++
    (if doRaise ∧ errorCatcher ≠ [] then [RunEvent.raised ⟨errorCatcher.dedup⟩] else [])

/- FromGenerator.Runner.retrieve_all and retrieve, script.py lines 466 to
   501.  retrieve runs one unit of a batch with a private error catcher that
   flips a success flag and forwards each error to the outer catcher, while
   appending every info the unit produces to the run queue; it returns the
   flag.  retrieve_all streams the units of a batch through a ResultStreamer
   and resolves the batch completion future. -/

/-- One result surfacing from the ResultStreamer of retrieve_all: whether
the retrieve coroutine itself finished without raising, and the success
flag it returned (its value). -/
structure StreamResult where
  successful : Bool
  value : Bool
deriving Repr, DecidableEq

/-- The batch completion future, tracking its value and how many times
set_result was called on it. -/
structure CompleteFut where
  value : Option Bool
  sets : Nat
deriving Repr, DecidableEq

/-- set_result on the completion future. -/
def CompleteFut.setResult (c : CompleteFut) (b : Bool) : CompleteFut :=
  ⟨some b, c.sets + 1⟩

/-- done on the completion future. -/
def CompleteFut.done (c : CompleteFut) : Bool :=
  c.value.isSome

/-- Embedding of the async-for body of retrieve_all, script.py lines 477 to
483, over the stream results in completion order: an unsuccessful result is
re-raised, ending the loop; a successful result carrying value False sets
the completion future to False when it is not yet done.  Returns the future,
whether the loop raised, and how many results were processed. -/
def retrieveAllLoop : List StreamResult → CompleteFut → CompleteFut × Bool × Nat
  | [], c => (c, false, 0)
  | r :: rest, c =>
      if ¬ r.successful then (c, true, 1)
      else
        let c1 := if ¬ r.value ∧ ¬ c.done then c.setResult false else c
        let t := retrieveAllLoop rest c1
        (t.1, t.2.1, t.2.2 + 1)

/-- Embedding of retrieve_all, script.py lines 466 to 486: run the streamer
loop starting from a fresh completion future; when the loop ends without
raising and the future is still unresolved, set it to True after the
streamer has finished. -/
def retrieve_all (results : List StreamResult) : CompleteFut × Bool × Nat :=
  let t := retrieveAllLoop results ⟨none, 0⟩
  if t.2.1 then (t.1, true, t.2.2)
  else (if ¬ t.1.done then t.1.setResult true else t.1, false, t.2.2)

/-- One unit of a batch as retrieve sees it: the infos its run yields and
the errors its run reports to the error catcher it was given. -/
structure UnitRun where
  infos : List Nat
  errs : List Error
deriving Repr, DecidableEq

/-- Embedding of retrieve, script.py lines 488 to 501: the success flag
starts True and pass_on_error flips it on each reported error while
forwarding the error to the outer catcher; every info is appended to the
run queue; the flag is returned.  Result: (queue appends, forwarded errors,
returned flag). -/
def retrieve (u : UnitRun) : List Nat × List Error × Bool :=
  (u.infos, u.errs, u.errs.isEmpty)

/-- The stream result the retrieve coroutine for a unit contributes when it
completes without raising. -/
def unitResult (u : UnitRun) : StreamResult :=
  ⟨true, (retrieve u).2.2⟩

/- FromGenerator.Runner.consume and stop_gen, script.py lines 430 to 464.
   The while loop repeatedly resumes the generator with the previous batch
   completion future; a yielded Exception object is recorded via add_error
   and the loop resumes again; otherwise, when stop_fut is done the loop
   breaks; otherwise a fresh completion future is created and retrieve_all
   over the batch is scheduled on the streamer.  StopAsyncIteration breaks
   the loop, any other exception from the generator propagates; in every
   case the finally clause runs stop_gen, which throws CancelledError into
   the generator, gives it one further asend, and closes it. -/

/-- An operation the runner applies to the user generator. -/
inductive GenOp
  | asend
  | athrow
  | aclose
deriving Repr, DecidableEq

/-- What one resumption of the user generator produces: an Exception object
(which consume records without dispatching) or a batch of messages. -/
inductive GenMsg (ε β : Type)
  | excVal (e : ε)
  | batch (b : β)
deriving Repr, DecidableEq

/-- How the generator finishes after its scripted yields: it either signals
exhaustion (StopAsyncIteration) or raises an error. -/
inductive GenEnding (ε : Type)
  | stops
  | raises (e : ε)
deriving Repr, DecidableEq

/-- How the generator reacts to the CancelledError thrown into it by
stop_gen: it may let the cancellation propagate, catch it and yield one
final cleanup batch, or catch it and return. -/
inductive GenCleanup
  | propagatesCancel
  | catchesAndYields
  | catchesAndReturns
deriving Repr, DecidableEq

/-- Embedding of stop_gen, script.py lines 451 to 464: athrow a
CancelledError into the generator; when the generator catches it and yields
once more, resume it one further time with asend (StopAsyncIteration being
passed over) and then close it.  When the generator lets the cancellation
propagate, or catches it and returns, the athrow call itself raises and the
background final coroutine ends there, its outcome only awaited. -/
def stop_gen (cleanup : GenCleanup) : List GenOp :=
  match cleanup with
  | .propagatesCancel => [.athrow]
  | .catchesAndYields => [.athrow, .asend, .aclose]
  | .catchesAndReturns => [.athrow]

/-- Whether stop_fut.done() answers true once k asend calls have completed:
stopAt none models a stop future that never completes during the loop,
stopAt (some n) one that is done at every check from the point n asends
have completed. -/
def stopDone (stopAt : Option Nat) (k : Nat) : Bool :=
  match stopAt with
  | none => false
  | some n => n ≤ k

/-- The observable outcome of consume: the operations applied to the
generator in order, the errors recorded via add_error, the scheduled
batches (each tagged with the ordinal of the asend that produced it; one
completion future is created per scheduled batch), and the exception
propagating out of the loop, if any. -/
structure ConsumeTrace (ε β : Type) where
  ops : List GenOp
  recorded : List ε
  scheduled : List (Nat × β)
  raisedOut : Option ε
deriving Repr, DecidableEq

/-- Embedding of the while loop of consume, script.py lines 434 to 447.
msgs are the values the generator yields before it finishes with ending;
k counts the asend calls already completed.  A yielded Exception object is
recorded and the loop resumes without checking stop_fut (the source
continues before the check); a batch is dropped and the loop breaks when
stop_fut is done, else the batch is scheduled. -/
def consumeLoop (stopAt : Option Nat) : List (GenMsg ε β) → GenEnding ε → Nat → ConsumeTrace ε β
  | [], ending, _ =>
      match ending with
      | .stops => ⟨[.asend], [], [], none⟩
      | .raises e => ⟨[.asend], [], [], some e⟩
  | m :: rest, ending, k =>
      match m with
      | .excVal e =>
          let t := consumeLoop stopAt rest ending (k + 1)
          ⟨.asend :: t.ops, e :: t.recorded, t.scheduled, t.raisedOut⟩
      | .batch b =>
          if stopDone stopAt (k + 1) then ⟨[.asend], [], [], none⟩
          else
            let t := consumeLoop stopAt rest ending (k + 1)
            ⟨.asend :: t.ops, t.recorded, (k + 1, b) :: t.scheduled, t.raisedOut⟩

/-- Embedding of consume, script.py lines 430 to 449: the while loop
followed by the finally clause, which always runs stop_gen on the
generator, whatever ended the loop. -/
def consume (stopAt : Option Nat) (msgs : List (GenMsg ε β)) (ending : GenEnding ε)
    (cleanup : GenCleanup) : ConsumeTrace ε β :=
  let t := consumeLoop stopAt msgs ending 0
  ⟨t.ops ++ stop_gen cleanup, t.recorded, t.scheduled, t.raisedOut⟩

/- Pipeline, script.py lines 41 to 112. -/

/-- One observable event of the gen closure of a synchronized Pipeline:
sleeping the spread, yielding child i, and the await of the completion
future of child i resolving to success. -/
inductive PipeEvent
  | sleep (secs : Nat)
  | dispatch (i : Nat)
  | resolved (i : Nat) (success : Bool)
deriving Repr, DecidableEq

/-- Embedding of the for loop in the gen closure of Pipeline, script.py
lines 93 to 101, started at child index i with the given number of children
remaining: sleep the spread before every child except the first, yield the
child, await its completion future (resolving to outcomes i), and break
when it resolved unsuccessfully and short_circuit_on_error is set. -/
def pipelineLoop (spread : Nat) (shortCircuit : Bool) (outcomes : Nat → Bool) :
    Nat → Nat → List PipeEvent
  | _, 0 => []
  | i, remaining + 1 =>
      (if 0 < i then [PipeEvent.sleep spread] else []) ++
        PipeEvent.dispatch i :: PipeEvent.resolved i (outcomes i) ::
          (if ¬ outcomes i ∧ shortCircuit then []
           else pipelineLoop spread shortCircuit outcomes (i + 1) remaining)

/-- Embedding of the gen closure of a Pipeline over numChildren children;
outcomes i is the value child i batch completion future resolves to. -/
def pipelineGen (numChildren spread : Nat) (shortCircuit : Bool)
    (outcomes : Nat → Bool) : List PipeEvent :=
  pipelineLoop spread shortCircuit outcomes 0 numChildren

/- Repeater, script.py lines 115 to 206. -/

/-- The outcome of one await of the on_done_loop hook: it returns, raises
Repeater.Stop, is cancelled (the source re-raises CancelledError, a
cancellation signal rather than an Exception), or raises some other
exception. -/
inductive HookRes
  | ok
  | stop
  | cancelled
  | hookErr (e : Error)
deriving Repr, DecidableEq

/-- One observable event of the gen closure of Repeater: yielding the
message for loop iteration k, the await of its completion future
returning, reset on the special reference, an error from the hook recorded
via add_error, and sleeping a positive remainder of min_loop_time. -/
inductive RepEvent
  | dispatch (k : Nat)
  | completed (k : Nat)
  | reset (k : Nat)
  | recordedError (e : Error)
  | slept (d : Int)
deriving Repr, DecidableEq

/-- Embedding of the while loop in the gen closure of Repeater, script.py
lines 171 to 193, at iteration k.  The script lists, for each iteration
the loop reaches, the elapsed time of the iteration and the hook outcome
(ignored when hasHook is false, mirroring the callable check): yield the
message, await its completion, reset the reference when it is a
SpecialReference, run the hook; Repeater.Stop breaks the loop,
CancelledError re-raises (cutting the trace), any other exception is
recorded and the loop continues; finally sleep min_loop_time minus the
elapsed time when that difference is positive.  The source loop is
infinite; the trace covers the scripted iterations. -/
def repeaterLoop (minLoopTime : Int) (special hasHook : Bool) :
    List (Int × HookRes) → Nat → List RepEvent
  | [], _ => []
  | (took, h) :: rest, k =>
      [RepEvent.dispatch k, RepEvent.completed k] ++
        (if special then [RepEvent.reset k] else []) ++
        (if hasHook ∧ (h = HookRes.stop ∨ h = HookRes.cancelled) then []
         else
           (if hasHook then
              match h with
              | HookRes.hookErr e => [RepEvent.recordedError e]
              | _ => []
            else []) ++
             (if 0 < minLoopTime - took then [RepEvent.slept (minLoopTime - took)] else []) ++
             repeaterLoop minLoopTime special hasHook rest (k + 1))

/- FromGeneratorPerSerial, script.py lines 209 to 230, together with the
   reference override plumbing of FromGenerator.Runner. -/

/-- The reference_override construction argument of FromGenerator: None,
True (take the outer reference), or a fixed reference. -/
inductive RefOverride
  | noOverride
  | outer
  | fixed (s : Serial)
deriving Repr, DecidableEq

/-- A FromGenerator instance as far as its construction matters here: the
override it was built with. -/
structure FromGeneratorModel where
  override : RefOverride
deriving Repr, DecidableEq

/-- Embedding of Runner.run_reference, script.py lines 409 to 414: the
reference yielded messages are dispatched to; None when no override was
given (the source falls through, returning None). -/
def run_reference (override : RefOverride) (outer : Serial) : Option Serial :=
  match override with
  | .outer => some outer
  | .fixed s => some s
  | .noOverride => none

/-- Embedding of the gen closure of FromGeneratorPerSerial, script.py lines
218 to 228: resolve the outer reference to serials and missing, yield one
FailedToFindDevice per missing serial (an Exception object, recorded by
consume), then yield one batch holding one FromGenerator with a fixed
per-serial override for each found serial.  A FailedToFindDevice error is
identified here by the serial it names. -/
def perSerialGenMsgs (reference : Ref) (network : List Serial) :
    List (GenMsg Serial (List FromGeneratorModel)) :=
  let r := find_serials reference network
  r.2.map GenMsg.excVal ++
    [GenMsg.batch (r.1.map (fun s => ⟨RefOverride.fixed s⟩))]

/- TaskHolder teardown.  The photons_app.helpers TaskHolder source is not
   under src/; only its tests are (src/tests/photons_app_tests/helpers/
   test_task_holder.py). -/

/-- A unit of concurrent work owned by the supervisor; budget bounds how
long the chain of done-callback successors it can trigger is, every real
run of the tests only ever adding finitely many successors. -/
structure MTask where
  id : Nat
  budget : Nat
deriving Repr, DecidableEq

/-- Modelled from the spec: photons_app.helpers.TaskHolder teardown (spec
section 4.2), whose source is not under src/.  On exit the holder cancels
every still-running task and awaits it; a done-callback of a finishing task
may add successor tasks (spawn), and the holder re-checks for newly added
work until the active set is observed empty.  Each recursion step is one
drain round: cancel and await the whole active set, then continue with
whatever the callbacks added.  Returns the list of per-round
cancelled-and-awaited sets and the tasks still active when the fuel runs
out. -/
def teardownRounds (spawn : MTask → List MTask) : Nat → List MTask → List (List MTask) × List MTask
  | 0, active => ([], active)
  | fuel + 1, active =>
      if active.isEmpty then ([], [])
      else
        let spawned := active.flatMap spawn
        let t := teardownRounds spawn fuel spawned
        (active :: t.1, t.2)

/-- The largest budget among the active tasks; the fuel sufficient for the
drain to observe the active set empty. -/
def maxBudget (l : List MTask) : Nat :=
  (l.map MTask.budget).foldr max 0

/- Theorems. -/

/-- Filtering a list and then asking contains for one of its members answers
exactly what the filter predicate answers. -/
theorem contains_filter_of_mem (targets network : List Serial) (t : Serial)
    (ht : t ∈ targets) :
    (targets.filter (fun x => network.contains x)).contains t = network.contains t := by
  by_cases hp : network.contains t = true
  · rw [hp]
    exact List.elem_iff.mpr (List.mem_filter.mpr ⟨ht, hp⟩)
  · have hnot : t ∉ targets.filter fun x => network.contains x := fun hmem =>
      hp (List.mem_filter.mp hmem).2
    rw [Bool.eq_false_iff.mpr hp, Bool.eq_false_iff]
    intro hc
    exact hnot (List.elem_iff.mp hc)

/-- The missing report of a hard-coded resolver over its own find result is
exactly the targets absent from the network. -/
theorem hardCoded_missing_find (targets network : List Serial) :
    (HardCodedSerials targets).missing ((HardCodedSerials targets).find network) =
      targets.filter (fun t => !(network.contains t)) := by
  simp only [HardCodedSerials]
  refine List.filter_congr ?_
  intro t ht
  rw [contains_filter_of_mem targets network t ht]

/-- Claim C7: find_serials resolves None, the empty string, the underscore
placeholder and NotSpecified by discovering the full device population with
nothing missing; a string is comma-split and, like a list of strings,
treated as a hard-coded serial list whose members present on the network
are found, in order, and whose members absent from the network are returned
in missing; any other value is used as the resolver itself, and missing is
always computed by asking the resolver about the found set. -/
theorem find_serials_resolution (network : List Serial) (s : String)
    (l : List Serial) (r : Resolver) :
    find_serials Ref.noneRef network = (network, []) ∧
    find_serials Ref.notSpecified network = (network, []) ∧
    find_serials (Ref.str "") network = (network, []) ∧
    find_serials (Ref.str "_") network = (network, []) ∧
    (s ≠ "" → s ≠ "_" →
      find_serials (Ref.str s) network =
        ((splitOnComma s).filter (fun t => network.contains t),
         (splitOnComma s).filter (fun t => !(network.contains t)))) ∧
    find_serials (Ref.strList l) network =
      (l.filter (fun t => network.contains t),
       l.filter (fun t => !(network.contains t))) ∧
    find_serials (Ref.special r) network = (r.find network, r.missing (r.find network)) := by
  refine ⟨rfl, rfl, rfl, rfl, ?_, ?_, rfl⟩
  · intro h1 h2
    simp only [find_serials, h1, h2, or_self, if_false]
    rw [hardCoded_missing_find]
    rfl
  · simp only [find_serials]
    rw [hardCoded_missing_find]
    rfl

/-- Witness for find_serials_resolution at concrete inputs. -/
theorem find_serials_resolution_witness :
    find_serials (Ref.str "d1,d3") ["d1", "d2"] = (["d1"], ["d3"]) := by
  have h := (find_serials_resolution ["d1", "d2"] "d1,d3" [] FoundSerials).2.2.2.2.1
    (by decide) (by decide)
  rw [h]
  decide

/-- Claim C1: in FromGenerator.Item.run, when the caller supplied no error
collector and at least one error was recorded, exactly one RunErrors
carrying the de-duplicated set of recorded errors is raised, and only as
the final event, after the whole result stream and the TaskHolder unwind;
when a collector was supplied, or nothing was recorded, nothing is ever
raised. -/
theorem itemRun_error_aggregation (results : List Nat) (recorded c : List Error) :
    (recorded ≠ [] →
      itemRun none results recorded =
        results.map RunEvent.result ++
          [RunEvent.unwound, RunEvent.raised ⟨recorded.dedup⟩] ∧
      (itemRun none results recorded).countP RunEvent.isRaised = 1 ∧
      (∀ e, e ∈ recorded.dedup ↔ e ∈ recorded) ∧ recorded.dedup.Nodup) ∧
    (recorded = [] → (itemRun none results recorded).countP RunEvent.isRaised = 0) ∧
    (itemRun (some c) results recorded).countP RunEvent.isRaised = 0 := by
  have hres : ∀ rs : List Nat,
      (rs.map RunEvent.result).countP RunEvent.isRaised = 0 := by
    intro rs
    rw [List.countP_eq_zero]
    intro a ha
    obtain ⟨v, _, rfl⟩ := List.mem_map.mp ha
    simp [RunEvent.isRaised]
  refine ⟨?_, ?_, ?_⟩
  · intro h
    refine ⟨?_, ?_, fun e => List.mem_dedup, List.nodup_dedup recorded⟩
    · simp [itemRun, h]
    · simp [itemRun, h, List.countP_append, hres, RunEvent.isRaised, List.countP_cons]
  · intro h
    subst h
    simp [itemRun, List.countP_append, hres, RunEvent.isRaised, List.countP_cons]
  · simp [itemRun, List.countP_append, hres, RunEvent.isRaised, List.countP_cons]

/-- Witness for itemRun_error_aggregation at concrete inputs. -/
theorem itemRun_error_aggregation_witness :
    itemRun none [10] [5, 5, 7] =
      [RunEvent.result 10].map id ++
        [RunEvent.unwound, RunEvent.raised ⟨[5, 7]⟩] ∧
    (itemRun (some []) [10] [5, 5, 7]).countP RunEvent.isRaised = 0 := by
  have h := itemRun_error_aggregation [10] [5, 5, 7] []
  refine ⟨?_, h.2.2⟩
  have h1 := (h.1 (by decide)).1
  rw [h1]
  decide

/-- Flattening the outputs of the grouping pass recovers the classified
input, whatever the starting buffer. -/
theorem groupLoop_contents (l : List FinalObj) :
    ∀ buf, (groupLoop buf l).flatMap SimplifyOut.contents = buf ++ l := by
  induction l with
  | nil =>
      intro buf
      by_cases h : buf.isEmpty
      · simp [groupLoop, h, List.isEmpty_iff.mp h]
      · simp [groupLoop, h, SimplifyOut.contents]
  | cons p rest ih =>
      intro buf
      by_cases hr : p.hasRunWith = true
      · by_cases h : buf.isEmpty
        · simp [groupLoop, hr, h, SimplifyOut.contents, ih, List.isEmpty_iff.mp h]
        · simp [groupLoop, hr, h, SimplifyOut.contents, ih]
      · simp only [groupLoop, hr, if_false, Bool.false_eq_true]
        rw [ih (buf ++ [p])]
        simp

/-- Every group the grouping pass yields is non-empty and holds only
objects lacking run_with, and every object it passes through exposes
run_with, provided the starting buffer holds only objects lacking
run_with. -/
theorem groupLoop_classified (l : List FinalObj) :
    ∀ buf, (∀ b ∈ buf, b.hasRunWith = false) →
      (∀ g, SimplifyOut.itemGroup g ∈ groupLoop buf l →
        g ≠ [] ∧ ∀ x ∈ g, x.hasRunWith = false) ∧
      (∀ x, SimplifyOut.exec x ∈ groupLoop buf l → x.hasRunWith = true) := by
  induction l with
  | nil =>
      intro buf hbuf
      constructor
      · intro g hg
        by_cases h : buf.isEmpty
        · simp [groupLoop, h] at hg
        · simp only [groupLoop, h, if_false, Bool.false_eq_true, List.mem_singleton] at hg
          cases hg
          exact ⟨fun hn => h (by simp [hn]), hbuf⟩
      · intro x hx
        by_cases h : buf.isEmpty <;> simp [groupLoop, h] at hx
  | cons p rest ih =>
      intro buf hbuf
      by_cases hr : p.hasRunWith = true
      · have ihr := ih [] (by intro b hb; simp at hb)
        constructor
        · intro g hg
          simp only [groupLoop, hr, if_true, List.mem_append, List.mem_cons] at hg
          rcases hg with hg | hg | hg
          · by_cases h : buf.isEmpty
            · simp [h] at hg
            · simp only [h, if_false, Bool.false_eq_true, List.mem_singleton] at hg
              cases hg
              exact ⟨fun hn => h (by simp [hn]), hbuf⟩
          · cases hg
          · exact ihr.1 g hg
        · intro x hx
          simp only [groupLoop, hr, if_true, List.mem_append, List.mem_cons] at hx
          rcases hx with hx | hx | hx
          · by_cases h : buf.isEmpty <;> simp [h] at hx
          · cases hx
            exact hr
          · exact ihr.2 x hx
      · have hbuf2 : ∀ b ∈ buf ++ [p], b.hasRunWith = false := by
          intro b hb
          rcases List.mem_append.mp hb with hb | hb
          · exact hbuf b hb
          · rw [List.mem_singleton.mp hb]
            exact Bool.eq_false_iff.mpr hr
        have := ih (buf ++ [p]) hbuf2
        simpa [groupLoop, hr] using this

/-- The grouping pass never yields two adjacent groups: an exec object in
front of a list does not change the adjacency check. -/
theorem noAdjacent_cons_exec (p : FinalObj) (rest : List SimplifyOut) :
    noAdjacentGroups (SimplifyOut.exec p :: rest) = noAdjacentGroups rest := by
  cases rest with
  | nil => rfl
  | cons r rs => cases r <;> rfl

/-- The grouping pass yields lists with no two adjacent groups, whatever
the starting buffer. -/
theorem groupLoop_noAdjacent (l : List FinalObj) :
    ∀ buf, noAdjacentGroups (groupLoop buf l) = true := by
  induction l with
  | nil =>
      intro buf
      by_cases h : buf.isEmpty <;> simp [groupLoop, h, noAdjacentGroups]
  | cons p rest ih =>
      intro buf
      by_cases hr : p.hasRunWith = true
      · by_cases h : buf.isEmpty
        · simp only [groupLoop, hr, if_true, h, List.nil_append]
          rw [noAdjacent_cons_exec]
          exact ih []
        · simp only [groupLoop, hr, if_true, h, if_false, Bool.false_eq_true,
            List.singleton_append]
          show noAdjacentGroups (SimplifyOut.itemGroup buf :: SimplifyOut.exec p :: groupLoop [] rest) = true
          rw [show noAdjacentGroups (SimplifyOut.itemGroup buf :: SimplifyOut.exec p :: groupLoop [] rest) = noAdjacentGroups (SimplifyOut.exec p :: groupLoop [] rest) from rfl]
          rw [noAdjacent_cons_exec]
          exact ih []
      · simp only [groupLoop, hr, if_false, Bool.false_eq_true]
        exact ih (buf ++ [p])

/-- Claim C9: Target.simplify yields elements exposing run_with as they
are, replaces elements exposing simplified by what that method returns,
and wraps each maximal contiguous group of remaining objects into exactly
one item_kls group, preserving relative order and interleaving groups with
the passed-through executable items as encountered; for [p1, p2, m1, p3]
with only m1 executable it yields item_kls([p1, p2]), m1, item_kls([p3]). -/
theorem simplify_grouping (parts : List SimplifyInput) (id : Nat) (r : FinalObj) :
    simplify [SimplifyInput.plain 1, SimplifyInput.plain 2,
        SimplifyInput.runnable 3, SimplifyInput.plain 4] =
      [SimplifyOut.itemGroup [FinalObj.withoutRunWith 1, FinalObj.withoutRunWith 2],
       SimplifyOut.exec (FinalObj.withRunWith 3),
       SimplifyOut.itemGroup [FinalObj.withoutRunWith 4]] ∧
    (simplify parts).flatMap SimplifyOut.contents = parts.map classify ∧
    (∀ g, SimplifyOut.itemGroup g ∈ simplify parts →
      g ≠ [] ∧ ∀ x ∈ g, x.hasRunWith = false) ∧
    (∀ x, SimplifyOut.exec x ∈ simplify parts → x.hasRunWith = true) ∧
    noAdjacentGroups (simplify parts) = true ∧
    classify (SimplifyInput.runnable id) = FinalObj.withRunWith id ∧
    classify (SimplifyInput.simplifiable id r) = r ∧
    classify (SimplifyInput.plain id) = FinalObj.withoutRunWith id := by
  have hcl := groupLoop_classified (parts.map classify) [] (by intro b hb; simp at hb)
  refine ⟨by decide, ?_, hcl.1, hcl.2, groupLoop_noAdjacent (parts.map classify) [], rfl, rfl, rfl⟩
  rw [simplify, groupLoop_contents]
  rfl

/-- Witness for simplify_grouping at concrete inputs. -/
theorem simplify_grouping_witness :
    ([FinalObj.withoutRunWith 4] ≠ [] ∧
      ∀ x ∈ [FinalObj.withoutRunWith 4], x.hasRunWith = false) ∧
    FinalObj.hasRunWith (FinalObj.withRunWith 3) = true := by
  have h := simplify_grouping [SimplifyInput.plain 1, SimplifyInput.plain 2,
    SimplifyInput.runnable 3, SimplifyInput.plain 4] 0 (FinalObj.withRunWith 0)
  exact ⟨h.2.2.1 [FinalObj.withoutRunWith 4] (by decide),
    h.2.2.2.1 (FinalObj.withRunWith 3) (by decide)⟩

/-- Every stream result a retrieve coroutine contributes on normal
completion is marked successful. -/
theorem map_unitResult_successful (l : List UnitRun) :
    ∀ x ∈ l.map unitResult, x.successful = true := by
  intro x hx
  obtain ⟨u, _, rfl⟩ := List.mem_map.mp hx
  rfl

/-- Once the completion future is done, processing any all-successful
result list leaves it unchanged while every result is still processed. -/
theorem retrieveAllLoop_done (rs : List StreamResult) :
    ∀ (b : Bool) (n0 : Nat), (∀ r ∈ rs, r.successful = true) →
      retrieveAllLoop rs ⟨some b, n0⟩ = (⟨some b, n0⟩, false, rs.length) := by
  induction rs with
  | nil => intro b n0 _; rfl
  | cons r rest ih =>
      intro b n0 h
      have hr : r.successful = true := h r (by simp)
      have ht := ih b n0 (fun x hx => h x (by simp [hx]))
      simp [retrieveAllLoop, hr, CompleteFut.done, ht]

/-- The streamer loop over units that all succeed does not touch the
completion future. -/
theorem retrieveAllLoop_units_ok (units : List UnitRun) :
    (∀ x ∈ units, x.errs.isEmpty = true) →
      retrieveAllLoop (units.map unitResult) ⟨none, 0⟩ =
        (⟨none, 0⟩, false, units.length) := by
  induction units with
  | nil => intro _; rfl
  | cons u rest ih =>
      intro h
      have hu : u.errs.isEmpty = true := h u (by simp)
      have ht := ih (fun x hx => h x (by simp [hx]))
      simp [retrieveAllLoop, unitResult, retrieve, hu, CompleteFut.done, ht]

/-- The streamer loop resolves the completion future to False the moment
the first failing unit reports, and still processes every later result. -/
theorem retrieveAllLoop_first_fail (pre : List UnitRun) (u : UnitRun) (post : List UnitRun) :
    (∀ p ∈ pre, p.errs.isEmpty = true) → u.errs.isEmpty = false →
      retrieveAllLoop ((pre ++ u :: post).map unitResult) ⟨none, 0⟩ =
        (⟨some false, 1⟩, false, pre.length + (post.length + 1)) := by
  induction pre with
  | nil =>
      intro _ hu
      have hpost := retrieveAllLoop_done (post.map unitResult) false 1
        (map_unitResult_successful post)
      simp [retrieveAllLoop, unitResult, retrieve, hu, CompleteFut.done,
        CompleteFut.setResult, hpost]
  | cons p pre ih =>
      intro h hu
      have hp : p.errs.isEmpty = true := h p (by simp)
      have ht := ih (fun x hx => h x (by simp [hx])) hu
      simp only [List.map_append, List.map_cons, unitResult, retrieve] at ht
      simp [retrieveAllLoop, unitResult, retrieve, hp, CompleteFut.done, ht]
      omega

/-- The completion future state is always either untouched or set exactly
once through the streamer loop. -/
theorem retrieveAllLoop_inv (rs : List StreamResult) :
    ∀ c : CompleteFut,
      (c.value = none ∧ c.sets = 0) ∨ (∃ b, c.value = some b ∧ c.sets = 1) →
      ((retrieveAllLoop rs c).1.value = none ∧ (retrieveAllLoop rs c).1.sets = 0) ∨
        (∃ b, (retrieveAllLoop rs c).1.value = some b ∧ (retrieveAllLoop rs c).1.sets = 1) := by
  induction rs with
  | nil => intro c h; exact h
  | cons r rest ih =>
      intro c h
      by_cases hs : r.successful = true
      · have h1 : ∀ c1 : CompleteFut,
            c1 = (if ¬ r.value ∧ ¬ c.done then c.setResult false else c) →
            (c1.value = none ∧ c1.sets = 0) ∨ (∃ b, c1.value = some b ∧ c1.sets = 1) := by
          intro c1 hc1
          by_cases hv : ¬ r.value = true ∧ ¬ c.done = true
          · rcases h with ⟨hnone, hz⟩ | ⟨b, hb, _⟩
            · right
              refine ⟨false, ?_⟩
              rw [hc1, if_pos hv]
              simp [CompleteFut.setResult, hz]
            · exfalso
              exact hv.2 (by simp [CompleteFut.done, hb])
          · rw [hc1, if_neg hv]
            exact h
        have := ih (if ¬ r.value ∧ ¬ c.done then c.setResult false else c) (h1 _ rfl)
        simpa [retrieveAllLoop, hs] using this
      · simpa [retrieveAllLoop, hs] using h

/-- The final flush of retrieve_all in terms of the streamer loop result. -/
theorem retrieve_all_eq_loop (rs : List StreamResult) (c : CompleteFut) (r : Bool) (n : Nat)
    (h : retrieveAllLoop rs ⟨none, 0⟩ = (c, r, n)) :
    retrieve_all rs =
      if r then (c, true, n)
      else (if ¬ c.done then c.setResult true else c, false, n) := by
  simp only [retrieve_all, h]

/-- Claim C2: the completion future of a batch is resolved at most once in
every run and exactly once whenever no unit of the batch raises; when
every unit reports success it is resolved to True only after the whole
streamer has drained; the moment the first failing unit reports, it is
resolved to False while the remaining units are still processed to
completion; and retrieve forwards a failing unit errors to the outer
collector while still appending every info the unit produced, returning
success exactly when no error was reported. -/
theorem retrieve_all_completion (rs : List StreamResult)
    (units pre post : List UnitRun) (u : UnitRun) :
    (retrieve_all rs).1.sets ≤ 1 ∧
    ((retrieve_all rs).2.1 = false → (retrieve_all rs).1.sets = 1) ∧
    ((∀ x ∈ units, x.errs.isEmpty = true) →
      retrieve_all (units.map unitResult) =
        (⟨some true, 1⟩, false, units.length)) ∧
    ((∀ p ∈ pre, p.errs.isEmpty = true) → u.errs.isEmpty = false →
      retrieve_all ((pre ++ u :: post).map unitResult) =
        (⟨some false, 1⟩, false, pre.length + (post.length + 1)) ∧
      (retrieveAllLoop ((pre ++ [u]).map unitResult) ⟨none, 0⟩).1 = ⟨some false, 1⟩) ∧
    retrieve u = (u.infos, u.errs, u.errs.isEmpty) := by
  have hinv := retrieveAllLoop_inv rs ⟨none, 0⟩ (Or.inl ⟨rfl, rfl⟩)
  obtain ⟨⟨c, r, n⟩, hloop⟩ : ∃ t, retrieveAllLoop rs ⟨none, 0⟩ = t := ⟨_, rfl⟩
  rw [hloop] at hinv
  simp only at hinv
  have heq := retrieve_all_eq_loop rs c r n hloop
  refine ⟨?_, ?_, ?_, ?_, rfl⟩
  · rw [heq]
    rcases hinv with ⟨hnone, hz⟩ | ⟨b, hb, ho⟩
    · have hd : c.done = false := by simp [CompleteFut.done, hnone]
      cases r
      · simp [hd, CompleteFut.setResult, hz]
      · simp [hz]
    · have hd : c.done = true := by simp [CompleteFut.done, hb]
      cases r
      · simp [hd, ho]
      · simp [ho]
  · intro hraised
    rw [heq] at hraised ⊢
    rcases hinv with ⟨hnone, hz⟩ | ⟨b, hb, ho⟩
    · have hd : c.done = false := by simp [CompleteFut.done, hnone]
      cases r
      · simp [hd, CompleteFut.setResult, hz]
      · simp at hraised
    · have hd : c.done = true := by simp [CompleteFut.done, hb]
      cases r
      · simp [hd, ho]
      · simp at hraised
  · intro hok
    have ht := retrieveAllLoop_units_ok units hok
    have := retrieve_all_eq_loop (units.map unitResult) ⟨none, 0⟩ false units.length ht
    rw [this]
    simp [CompleteFut.done, CompleteFut.setResult]
  · intro hpre hu
    have ht := retrieveAllLoop_first_fail pre u post hpre hu
    have ht2 := retrieveAllLoop_first_fail pre u [] hpre hu
    constructor
    · have := retrieve_all_eq_loop ((pre ++ u :: post).map unitResult) ⟨some false, 1⟩
        false (pre.length + (post.length + 1)) ht
      rw [this]
      simp [CompleteFut.done]
    · rw [ht2]

/-- Witness for retrieve_all_completion at concrete inputs. -/
theorem retrieve_all_completion_witness :
    (retrieve_all (([⟨[1], []⟩, ⟨[2], []⟩] : List UnitRun).map unitResult)).1.sets ≤ 1 ∧
    retrieve_all (([⟨[1], []⟩, ⟨[2], []⟩] : List UnitRun).map unitResult) =
      (⟨some true, 1⟩, false, 2) ∧
    retrieve_all (([⟨[1], []⟩, ⟨[], [3]⟩, ⟨[4], []⟩] : List UnitRun).map unitResult) =
      (⟨some false, 1⟩, false, 3) := by
  have h1 := retrieve_all_completion
    (([⟨[1], []⟩, ⟨[2], []⟩] : List UnitRun).map unitResult)
    [⟨[1], []⟩, ⟨[2], []⟩] [] [] ⟨[], []⟩
  have h2 := retrieve_all_completion ([] : List StreamResult)
    [] [⟨[1], []⟩] [⟨[4], []⟩] ⟨[], [3]⟩
  refine ⟨h1.1, h1.2.2.1 (by decide), ?_⟩
  have := (h2.2.2.2.1 (by decide) (by decide)).1
  simpa using this

/-- The consume loop itself only ever resumes the generator: its operation
trace is some number of asend calls. -/
theorem consumeLoop_ops (ε β : Type) (stopAt : Option Nat) (msgs : List (GenMsg ε β)) :
    ∀ (ending : GenEnding ε) (k : Nat),
      ∃ n, (consumeLoop stopAt msgs ending k).ops = List.replicate n GenOp.asend := by
  induction msgs with
  | nil =>
      intro ending k
      cases ending
      · exact ⟨1, rfl⟩
      · exact ⟨1, rfl⟩
  | cons m rest ih =>
      intro ending k
      cases m with
      | excVal e =>
          obtain ⟨n, hn⟩ := ih ending (k + 1)
          exact ⟨n + 1, by simp [consumeLoop, hn, List.replicate_succ]⟩
      | batch b =>
          by_cases hs : stopDone stopAt (k + 1) = true
          · exact ⟨1, by simp [consumeLoop, hs]⟩
          · obtain ⟨n, hn⟩ := ih ending (k + 1)
            exact ⟨n + 1, by simp [consumeLoop, hs, hn, List.replicate_succ]⟩

/-- Claim C3: whatever ends the main loop of a MessageSequencer run
(generator exhaustion, an unrecovered exception from the generator, or the
scoped stop future being done, including the caller abandoning the stream),
the generator is afterwards sent one cancellation signal via athrow,
granted exactly one further resumption (honoured when it catches the signal
and yields once more, so its cleanup is processed), and then closed and
discarded: the operation trace is exactly the asend calls of the loop
followed by athrow, one asend, and aclose. -/
theorem consume_gen_shutdown (ε β : Type) (stopAt : Option Nat) (msgs : List (GenMsg ε β))
    (ending : GenEnding ε) (cleanup : GenCleanup) :
    (∃ n, (consume stopAt msgs ending cleanup).ops =
      List.replicate n GenOp.asend ++ stop_gen cleanup) ∧
    stop_gen GenCleanup.catchesAndYields = [GenOp.athrow, GenOp.asend, GenOp.aclose] ∧
    (consume stopAt msgs ending GenCleanup.catchesAndYields).ops.count GenOp.athrow = 1 ∧
    (consume stopAt msgs ending GenCleanup.catchesAndYields).ops.count GenOp.aclose = 1 := by
  obtain ⟨n, hn⟩ := consumeLoop_ops ε β stopAt msgs ending 0
  refine ⟨⟨n, by simp [consume, hn]⟩, rfl, ?_, ?_⟩ <;>
    simp [consume, hn, stop_gen, List.count_append, List.count_replicate, List.count_cons]

/-- Every batch the consume loop schedules arose from a resumption
strictly before the point the stop future completes. -/
theorem consumeLoop_scheduled_lt (ε β : Type) (nstop : Nat) (msgs : List (GenMsg ε β)) :
    ∀ (ending : GenEnding ε) (k : Nat) (p : Nat × β),
      p ∈ (consumeLoop (some nstop) msgs ending k).scheduled → p.1 < nstop := by
  induction msgs with
  | nil =>
      intro ending k p hp
      cases ending <;> simp [consumeLoop] at hp
  | cons m rest ih =>
      intro ending k p hp
      cases m with
      | excVal e =>
          simp only [consumeLoop] at hp
          exact ih ending (k + 1) p hp
      | batch b =>
          by_cases hs : stopDone (some nstop) (k + 1) = true
          · simp [consumeLoop, hs] at hp
          · simp only [consumeLoop, hs, Bool.false_eq_true, if_false, List.mem_cons] at hp
            rcases hp with hp | hp
            · have hlt : ¬ nstop ≤ k + 1 := by
                simpa [stopDone] using hs
              rw [hp]
              omega
            · exact ih ending (k + 1) p hp

/-- Claim C10: once the scoped stop future of a run is done, any batch the
generator subsequently produces is discarded without any of its units being
dispatched: every scheduled batch (and the completion future created with
it) arose from a resumption strictly before the stop point, a run whose
stop future is done from the start schedules nothing at all, and the
operation trace breaks straight from the loop resumptions into the
generator shutdown sequence. -/
theorem consume_stop_discards (ε β : Type) (nstop : Nat) (msgs : List (GenMsg ε β))
    (ending : GenEnding ε) (cleanup : GenCleanup) (p : Nat × β) :
    (p ∈ (consume (some nstop) msgs ending cleanup).scheduled → p.1 < nstop) ∧
    (consume (some 0) msgs ending cleanup).scheduled = [] ∧
    (∃ m, (consume (some nstop) msgs ending cleanup).ops =
      List.replicate m GenOp.asend ++ stop_gen cleanup) := by
  refine ⟨?_, ?_, ?_⟩
  · intro hp
    exact consumeLoop_scheduled_lt ε β nstop msgs ending 0 p (by simpa [consume] using hp)
  · rw [List.eq_nil_iff_forall_not_mem]
    intro q hq
    have := consumeLoop_scheduled_lt ε β 0 msgs ending 0 q (by simpa [consume] using hq)
    omega
  · obtain ⟨n, hn⟩ := consumeLoop_ops ε β (some nstop) msgs ending 0
    exact ⟨n, by simp [consume, hn]⟩

/-- Witness for consume_stop_discards at concrete inputs. -/
theorem consume_stop_discards_witness :
    (1, 5) ∈ (consume (some 2) [GenMsg.batch 5, GenMsg.batch 6]
      (GenEnding.stops (ε := Nat)) GenCleanup.catchesAndYields).scheduled ∧ 1 < 2 := by
  have h := consume_stop_discards Nat Nat 2 [GenMsg.batch 5, GenMsg.batch 6]
    GenEnding.stops GenCleanup.catchesAndYields (1, 5)
  exact ⟨by decide, h.1 (by decide)⟩

/-- Every dispatch in the pipeline loop starting at index i concerns an
index at least i. -/
theorem pipelineLoop_dispatch_ge (spread : Nat) (sc : Bool) (oc : Nat → Bool) :
    ∀ (rem i j : Nat), PipeEvent.dispatch j ∈ pipelineLoop spread sc oc i rem → i ≤ j := by
  intro rem
  induction rem with
  | zero =>
      intro i j h
      simp [pipelineLoop] at h
  | succ m ih =>
      intro i j h
      simp only [pipelineLoop, List.mem_append, List.mem_cons] at h
      rcases h with h | h | h | h
      · split at h <;> simp at h
      · simp only [PipeEvent.dispatch.injEq] at h
        omega
      · simp at h
      · split at h
        · simp at h
        · exact Nat.le_of_lt (Nat.lt_of_lt_of_le (Nat.lt_succ_self i) (ih (i + 1) j h))

/-- In the pipeline loop, any dispatched batch j is preceded, in trace
order, by the dispatch and the resolution of every earlier batch a in
range. -/
theorem pipelineLoop_serialized (spread : Nat) (sc : Bool) (oc : Nat → Bool) :
    ∀ (rem i j : Nat), PipeEvent.dispatch j ∈ pipelineLoop spread sc oc i rem →
      ∀ a, i ≤ a → a < j →
        List.Sublist [PipeEvent.dispatch a, PipeEvent.resolved a (oc a), PipeEvent.dispatch j]
          (pipelineLoop spread sc oc i rem) := by
  intro rem
  induction rem with
  | zero =>
      intro i j h
      simp [pipelineLoop] at h
  | succ m ih =>
      intro i j h a hia haj
      have hij : i ≤ j := pipelineLoop_dispatch_ge spread sc oc (m + 1) i j h
      have hji : j ≠ i := by omega
      have htail : PipeEvent.dispatch j ∈
          (if ¬ oc i ∧ sc then [] else pipelineLoop spread sc oc (i + 1) m) := by
        simp only [pipelineLoop, List.mem_append, List.mem_cons] at h
        rcases h with h | h | h | h
        · split at h <;> simp at h
        · simp only [PipeEvent.dispatch.injEq] at h
          omega
        · simp at h
        · exact h
      have htail2 : PipeEvent.dispatch j ∈ pipelineLoop spread sc oc (i + 1) m := by
        split at htail
        · simp at htail
        · exact htail
      have hcut : ¬ (¬ oc i ∧ sc = true) := by
        intro hc
        rw [if_pos hc] at htail
        simp at htail
      by_cases ha : a = i
      · subst ha
        have hsub1 : List.Sublist [PipeEvent.dispatch j]
            (pipelineLoop spread sc oc (a + 1) m) :=
          List.singleton_sublist.mpr htail2
        have hsub2 : List.Sublist
            [PipeEvent.dispatch a, PipeEvent.resolved a (oc a), PipeEvent.dispatch j]
            (PipeEvent.dispatch a :: PipeEvent.resolved a (oc a) ::
              pipelineLoop spread sc oc (a + 1) m) :=
          (hsub1.cons₂ (PipeEvent.resolved a (oc a))).cons₂ (PipeEvent.dispatch a)
        have hfull : pipelineLoop spread sc oc a (m + 1) =
            (if 0 < a then [PipeEvent.sleep spread] else []) ++
              PipeEvent.dispatch a :: PipeEvent.resolved a (oc a) ::
                pipelineLoop spread sc oc (a + 1) m := by
          simp only [pipelineLoop, if_neg hcut]
        rw [hfull]
        exact hsub2.trans (List.sublist_append_right _ _)
      · have hsub := ih (i + 1) j htail2 a (by omega) haj
        have : List.Sublist (pipelineLoop spread sc oc (i + 1) m)
            (pipelineLoop spread sc oc i (m + 1)) := by
          simp only [pipelineLoop, if_neg hcut]
          exact List.Sublist.trans
            (List.Sublist.trans (List.sublist_cons_self _ _) (List.sublist_cons_self _ _))
            (List.sublist_append_right _ _)
        exact hsub.trans this

/-- In the pipeline loop, every dispatch of a batch with positive index is
immediately preceded by the spread sleep. -/
theorem pipelineLoop_sleep_before (spread : Nat) (sc : Bool) (oc : Nat → Bool) :
    ∀ (rem i j : Nat), 0 < j → PipeEvent.dispatch j ∈ pipelineLoop spread sc oc i rem →
      ∃ pre post, pipelineLoop spread sc oc i rem =
        pre ++ PipeEvent.sleep spread :: PipeEvent.dispatch j :: post := by
  intro rem
  induction rem with
  | zero =>
      intro i j _ h
      simp [pipelineLoop] at h
  | succ m ih =>
      intro i j hj h
      simp only [pipelineLoop, List.mem_append, List.mem_cons] at h
      rcases h with h | h | h | h
      · split at h <;> simp at h
      · simp only [PipeEvent.dispatch.injEq] at h
        subst h
        refine ⟨[], PipeEvent.resolved j (oc j) ::
          (if ¬ oc j ∧ sc then [] else pipelineLoop spread sc oc (j + 1) m), ?_⟩
        simp only [pipelineLoop, if_pos hj, List.singleton_append, List.nil_append]
      · simp at h
      · have htail : PipeEvent.dispatch j ∈ pipelineLoop spread sc oc (i + 1) m := by
          split at h
          · simp at h
          · exact h
        have hcut : ¬ (¬ oc i = true ∧ sc = true) := by
          intro hc
          rw [if_pos hc] at h
          simp at h
        obtain ⟨pre, post, hpp⟩ := ih (i + 1) j hj htail
        refine ⟨(if 0 < i then [PipeEvent.sleep spread] else []) ++
          PipeEvent.dispatch i :: PipeEvent.resolved i (oc i) :: pre, post, ?_⟩
        simp only [pipelineLoop, if_neg hcut, hpp, List.append_assoc, List.cons_append]

/-- With short_circuit_on_error set, reaching a later batch j means every
earlier batch in range resolved successfully. -/
theorem pipelineLoop_shortCircuit (spread : Nat) (oc : Nat → Bool) :
    ∀ (rem i j a : Nat), PipeEvent.dispatch j ∈ pipelineLoop spread true oc i rem →
      i ≤ a → a < j → oc a = true := by
  intro rem
  induction rem with
  | zero =>
      intro i j a h
      simp [pipelineLoop] at h
  | succ m ih =>
      intro i j a h hia haj
      have hij : i ≤ j := pipelineLoop_dispatch_ge spread true oc (m + 1) i j h
      have hji : j ≠ i := by omega
      have htail : PipeEvent.dispatch j ∈
          (if ¬ oc i = true ∧ True then [] else pipelineLoop spread true oc (i + 1) m) := by
        simp only [pipelineLoop, List.mem_append, List.mem_cons] at h
        rcases h with h | h | h | h
        · split at h <;> simp at h
        · simp only [PipeEvent.dispatch.injEq] at h
          omega
        · simp at h
        · exact h
      have hoci : oc i = true := by
        by_contra hno
        rw [if_pos ⟨by simp [hno], trivial⟩] at htail
        simp at htail
      have htail2 : PipeEvent.dispatch j ∈ pipelineLoop spread true oc (i + 1) m := by
        split at htail
        · simp at htail
        · exact htail
      by_cases ha : a = i
      · rw [ha]
        exact hoci
      · exact ih (i + 1) j a htail2 (by omega) haj

/-- Claim C4: a synchronized Pipeline dispatches its batches strictly in
order, batch j never being dispatched until every earlier batch was
dispatched and its completion handle resolved; the spread sleep
immediately precedes every dispatch except the first, and the trace of a
non-empty pipeline opens directly with the dispatch of batch 0 with no
sleep before it; and with short_circuit_on_error set, a batch is only ever
dispatched when every earlier batch resolved successfully, so a failed
batch stops all later dispatches. -/
theorem pipeline_synchronized (n spread m j a : Nat) (sc : Bool) (oc : Nat → Bool) :
    (∃ tail, pipelineGen (m + 1) spread sc oc =
      PipeEvent.dispatch 0 :: PipeEvent.resolved 0 (oc 0) :: tail) ∧
    (PipeEvent.dispatch j ∈ pipelineGen n spread sc oc → a < j →
      List.Sublist [PipeEvent.dispatch a, PipeEvent.resolved a (oc a), PipeEvent.dispatch j]
        (pipelineGen n spread sc oc)) ∧
    (0 < j → PipeEvent.dispatch j ∈ pipelineGen n spread sc oc →
      ∃ pre post, pipelineGen n spread sc oc =
        pre ++ PipeEvent.sleep spread :: PipeEvent.dispatch j :: post) ∧
    (oc a = false → a < j → PipeEvent.dispatch j ∉ pipelineGen n spread true oc) := by
  refine ⟨?_, ?_, ?_, ?_⟩
  · exact ⟨(if ¬ oc 0 ∧ sc then [] else pipelineLoop spread sc oc 1 m), by
      simp [pipelineGen, pipelineLoop]⟩
  · intro hmem haj
    exact pipelineLoop_serialized spread sc oc n 0 j hmem a (Nat.zero_le a) haj
  · intro hj hmem
    exact pipelineLoop_sleep_before spread sc oc n 0 j hj hmem
  · intro hfail haj hmem
    have := pipelineLoop_shortCircuit spread oc n 0 j a hmem (Nat.zero_le a) haj
    rw [this] at hfail
    cases hfail

/-- Witness for pipeline_synchronized at concrete inputs. -/
theorem pipeline_synchronized_witness :
    List.Sublist [PipeEvent.dispatch 0, PipeEvent.resolved 0 true, PipeEvent.dispatch 1]
      (pipelineGen 2 7 false (fun _ => true)) ∧
    PipeEvent.dispatch 1 ∉ pipelineGen 2 7 true (fun _ => false) := by
  have h := pipeline_synchronized 2 7 1 1 0 false (fun _ => true)
  have h2 := pipeline_synchronized 2 7 1 1 0 true (fun _ => false)
  exact ⟨h.2.1 (by decide) (by decide), h2.2.2.2 (by decide) (by decide)⟩

/-- When the reference is not a SpecialReference the repeater loop never
emits a reset, whatever the script. -/
theorem repeaterLoop_no_reset (minLoop : Int) (hasHook : Bool) :
    ∀ (script : List (Int × HookRes)) (k j : Nat),
      RepEvent.reset j ∉ repeaterLoop minLoop false hasHook script k := by
  intro script
  induction script with
  | nil =>
      intro k j h
      simp [repeaterLoop] at h
  | cons it rest ih =>
      intro k j h
      obtain ⟨took, hk⟩ := it
      cases hasHook <;> cases hk <;>
        by_cases hs : (0 : Int) < minLoop - took <;>
        simp [repeaterLoop, hs] at h <;>
        exact ih (k + 1) j h

/-- Claim C5: in each Repeater loop iteration, after the batch completion
future resolves the reference is reset exactly when it supports resetting
(it is a SpecialReference, never otherwise); a Repeater.Stop from the
on_done_loop hook ends the loop with no further batch dispatched; any
other exception from the hook is recorded through the error collector and
the loop continues into the next iteration; and the iteration then sleeps
min_loop_time minus the elapsed time exactly when that difference is
positive. -/
theorem repeater_loop_behaviour (minLoop took : Int) (special hasHook : Bool)
    (e : Error) (h : HookRes) (rest : List (Int × HookRes)) (k j : Nat) :
    (∃ tail, repeaterLoop minLoop true hasHook ((took, h) :: rest) k =
      RepEvent.dispatch k :: RepEvent.completed k :: RepEvent.reset k :: tail) ∧
    (RepEvent.reset j ∉ repeaterLoop minLoop false hasHook ((took, h) :: rest) k) ∧
    (repeaterLoop minLoop special true ((took, HookRes.stop) :: rest) k =
      [RepEvent.dispatch k, RepEvent.completed k] ++
        (if special then [RepEvent.reset k] else [])) ∧
    (repeaterLoop minLoop special true ((took, HookRes.hookErr e) :: rest) k =
      [RepEvent.dispatch k, RepEvent.completed k] ++
        (if special then [RepEvent.reset k] else []) ++
          RepEvent.recordedError e ::
            ((if 0 < minLoop - took then [RepEvent.slept (minLoop - took)] else []) ++
              repeaterLoop minLoop special true rest (k + 1))) ∧
    (0 < minLoop - took →
      repeaterLoop minLoop special hasHook ((took, HookRes.ok) :: rest) k =
        [RepEvent.dispatch k, RepEvent.completed k] ++
          (if special then [RepEvent.reset k] else []) ++
            RepEvent.slept (minLoop - took) ::
              repeaterLoop minLoop special hasHook rest (k + 1)) ∧
    (minLoop - took ≤ 0 →
      repeaterLoop minLoop special hasHook ((took, HookRes.ok) :: rest) k =
        [RepEvent.dispatch k, RepEvent.completed k] ++
          (if special then [RepEvent.reset k] else []) ++
            repeaterLoop minLoop special hasHook rest (k + 1)) := by
  refine ⟨?_, repeaterLoop_no_reset minLoop hasHook ((took, h) :: rest) k j, ?_, ?_, ?_, ?_⟩
  · refine ⟨List.drop 3 (repeaterLoop minLoop true hasHook ((took, h) :: rest) k), ?_⟩
    cases hasHook <;> cases h <;>
      by_cases hs : (0 : Int) < minLoop - took <;>
      simp [repeaterLoop, hs]
  · cases special <;> simp [repeaterLoop]
  · cases special <;> by_cases hs : (0 : Int) < minLoop - took <;>
      simp [repeaterLoop, hs]
  · intro hs
    cases special <;> cases hasHook <;> simp [repeaterLoop, hs]
  · intro hs
    have hs2 : ¬ (0 : Int) < minLoop - took := by omega
    cases special <;> cases hasHook <;> simp [repeaterLoop, hs2]

/-- Witness for repeater_loop_behaviour at concrete inputs. -/
theorem repeater_loop_behaviour_witness :
    repeaterLoop 30 false true [(10, HookRes.ok)] 0 =
      [RepEvent.dispatch 0, RepEvent.completed 0] ++
        (if false then [RepEvent.reset 0] else []) ++
          RepEvent.slept 20 :: repeaterLoop 30 false true [] 1 ∧
    repeaterLoop 30 true true [(10, HookRes.stop), (10, HookRes.ok)] 0 =
      [RepEvent.dispatch 0, RepEvent.completed 0] ++
        (if true then [RepEvent.reset 0] else []) := by
  have h1 := repeater_loop_behaviour 30 10 false true 3 HookRes.ok [] 0 0
  have h2 := repeater_loop_behaviour 30 10 true true 3 HookRes.stop [(10, HookRes.ok)] 0 0
  exact ⟨by simpa using h1.2.2.2.2.1 (by decide), h2.2.2.1⟩

/-- With a stop future that never completes, the consume loop records
every yielded Exception object and schedules every yielded batch, in
order. -/
theorem consumeLoop_none_collect (ε β : Type) (msgs : List (GenMsg ε β)) :
    ∀ (ending : GenEnding ε) (k : Nat),
      (consumeLoop none msgs ending k).recorded =
        msgs.filterMap (fun m => match m with | .excVal e => some e | .batch _ => none) ∧
      ((consumeLoop none msgs ending k).scheduled).map Prod.snd =
        msgs.filterMap (fun m => match m with | .batch b => some b | .excVal _ => none) := by
  induction msgs with
  | nil =>
      intro ending k
      cases ending <;> exact ⟨rfl, rfl⟩
  | cons m rest ih =>
      intro ending k
      cases m with
      | excVal e =>
          have := ih ending (k + 1)
          simp [consumeLoop, this.1, this.2]
      | batch b =>
          have := ih ending (k + 1)
          simp [consumeLoop, stopDone, this.1, this.2]

/-- Filtering the exception extraction over a list of yielded Exception
objects recovers the list. -/
theorem filterMap_excVal (ε β : Type) (l : List ε) :
    (l.map (GenMsg.excVal (β := β))).filterMap
      (fun m => match m with | GenMsg.excVal e => some e | GenMsg.batch _ => none) = l := by
  induction l with
  | nil => rfl
  | cons x xs ih => simp [ih]

/-- Filtering the batch extraction over a list of yielded Exception
objects gives nothing. -/
theorem filterMap_excVal_batch (ε β : Type) (l : List ε) :
    (l.map (GenMsg.excVal (β := β))).filterMap
      (fun m => match m with | GenMsg.batch b => some b | GenMsg.excVal _ => none) = [] := by
  induction l with
  | nil => rfl
  | cons x xs ih => simp [ih]

/-- Claim C6: a per-device fan-out run first resolves the outer reference,
records exactly one FailedToFindDevice (identified by its serial) for each
serial that could not be found, and dispatches exactly one batch holding
one independent sequencer with a fixed per-serial reference override for
each found serial, each targeting exactly its own serial; in the concrete
scenario of endpoints E1 and E2 with E2 missing from discovery, the run
records exactly one resolution failure, for E2, while the E1 sequencer is
still dispatched and a successful E1 unit still streams its responses. -/
theorem perSerial_fanout (reference : Ref) (network : List Serial)
    (cleanup : GenCleanup) (s outer : Serial) (infos : List Nat) :
    (consume none (perSerialGenMsgs reference network) GenEnding.stops cleanup).recorded =
      (find_serials reference network).2 ∧
    ((consume none (perSerialGenMsgs reference network) GenEnding.stops cleanup).scheduled).map
        Prod.snd =
      [(find_serials reference network).1.map (fun x => ⟨RefOverride.fixed x⟩)] ∧
    run_reference (RefOverride.fixed s) outer = some s ∧
    (consume none (perSerialGenMsgs (Ref.strList ["E1", "E2"]) ["E1"])
        GenEnding.stops cleanup).recorded = ["E2"] ∧
    ((consume none (perSerialGenMsgs (Ref.strList ["E1", "E2"]) ["E1"])
        GenEnding.stops cleanup).scheduled).map Prod.snd =
      [[⟨RefOverride.fixed "E1"⟩]] ∧
    retrieve ⟨infos, []⟩ = (infos, [], true) := by
  have hgen := consumeLoop_none_collect Serial (List FromGeneratorModel)
    (perSerialGenMsgs reference network) GenEnding.stops 0
  have hgen2 := consumeLoop_none_collect Serial (List FromGeneratorModel)
    (perSerialGenMsgs (Ref.strList ["E1", "E2"]) ["E1"]) GenEnding.stops 0
  refine ⟨?_, ?_, rfl, ?_, ?_, rfl⟩
  · rw [show (consume none (perSerialGenMsgs reference network) GenEnding.stops cleanup).recorded
      = (consumeLoop none (perSerialGenMsgs reference network) GenEnding.stops 0).recorded from rfl]
    rw [hgen.1]
    simp only [perSerialGenMsgs, List.filterMap_append]
    rw [filterMap_excVal]
    simp
  · rw [show ((consume none (perSerialGenMsgs reference network) GenEnding.stops cleanup).scheduled).map Prod.snd
      = ((consumeLoop none (perSerialGenMsgs reference network) GenEnding.stops 0).scheduled).map Prod.snd from rfl]
    rw [hgen.2]
    simp only [perSerialGenMsgs, List.filterMap_append]
    rw [filterMap_excVal_batch]
    simp
  · rw [show (consume none (perSerialGenMsgs (Ref.strList ["E1", "E2"]) ["E1"])
        GenEnding.stops cleanup).recorded
      = (consumeLoop none (perSerialGenMsgs (Ref.strList ["E1", "E2"]) ["E1"])
        GenEnding.stops 0).recorded from rfl]
    rw [hgen2.1]
    decide
  · rw [show ((consume none (perSerialGenMsgs (Ref.strList ["E1", "E2"]) ["E1"])
        GenEnding.stops cleanup).scheduled).map Prod.snd
      = ((consumeLoop none (perSerialGenMsgs (Ref.strList ["E1", "E2"]) ["E1"])
        GenEnding.stops 0).scheduled).map Prod.snd from rfl]
    rw [hgen2.2]
    decide

/-- Every task in the active set has budget at most the maximum. -/
theorem mem_le_maxBudget (l : List MTask) (t : MTask) (ht : t ∈ l) :
    t.budget ≤ maxBudget l := by
  induction l with
  | nil => cases ht
  | cons x xs ih =>
      rcases List.mem_cons.mp ht with h | h
      · rw [h]
        simp only [maxBudget, List.map_cons, List.foldr_cons]
        exact Nat.le_max_left _ _
      · have := ih h
        simp only [maxBudget, List.map_cons, List.foldr_cons]
        exact Nat.le_trans this (Nat.le_max_right _ _)

/-- A list whose members all have budget below a positive bound has its
maximum below that bound. -/
theorem maxBudget_lt (l : List MTask) (M : Nat) (hM : 0 < M)
    (h : ∀ s ∈ l, s.budget < M) : maxBudget l < M := by
  induction l with
  | nil => simpa [maxBudget] using hM
  | cons x xs ih =>
      have hx := h x (by simp)
      have hxs := ih (fun s hs => h s (by simp [hs]))
      simp only [maxBudget, List.map_cons, List.foldr_cons] at hxs ⊢
      omega

/-- Draining an empty active set leaves nothing, whatever the fuel. -/
theorem teardownRounds_nil (spawn : MTask → List MTask) (fuel : Nat) :
    teardownRounds spawn fuel [] = ([], []) := by
  cases fuel <;> simp [teardownRounds]

/-- With fuel above the largest budget, the drain loop of the supervisor
teardown observes the active set empty: no task remains. -/
theorem teardown_empties (spawn : MTask → List MTask)
    (hspawn : ∀ a b, b ∈ spawn a → b.budget < a.budget) :
    ∀ (fuel : Nat) (active : List MTask), maxBudget active < fuel →
      (teardownRounds spawn fuel active).2 = [] := by
  intro fuel
  induction fuel with
  | zero =>
      intro active h
      omega
  | succ f ih =>
      intro active h
      by_cases he : active.isEmpty
      · simp [teardownRounds, he]
      · by_cases hs : active.flatMap spawn = []
        · simp [teardownRounds, he, hs, teardownRounds_nil]
        · have hm : maxBudget (active.flatMap spawn) < maxBudget active := by
            obtain ⟨b, hb⟩ := List.exists_mem_of_ne_nil _ hs
            obtain ⟨a, ha, hba⟩ := List.mem_flatMap.mp hb
            have h0 : 0 < maxBudget active :=
              Nat.lt_of_lt_of_le (Nat.lt_of_lt_of_le (Nat.zero_lt_of_lt (hspawn a b hba))
                (Nat.le_refl _)) (mem_le_maxBudget active a ha)
            refine maxBudget_lt _ _ h0 ?_
            intro x hx
            obtain ⟨a2, ha2, hxa2⟩ := List.mem_flatMap.mp hx
            exact Nat.lt_of_lt_of_le (hspawn a2 x hxa2) (mem_le_maxBudget active a2 ha2)
          have := ih (active.flatMap spawn) (by omega)
          simp [teardownRounds, he, this]

/-- With positive fuel, every task of the current active set appears in
the first drain round, so it is cancelled and awaited. -/
theorem active_in_rounds (spawn : MTask → List MTask) (fuel : Nat)
    (active : List MTask) (t : MTask) (hf : 0 < fuel) (ht : t ∈ active) :
    t ∈ (teardownRounds spawn fuel active).1.flatten := by
  obtain ⟨f, rfl⟩ : ∃ f, fuel = f + 1 := ⟨fuel - 1, by omega⟩
  have hne : ¬ active.isEmpty := by
    cases active
    · cases ht
    · simp
  simp only [teardownRounds, hne, if_false, Bool.false_eq_true]
  exact List.mem_flatten.mpr ⟨active, by simp, ht⟩

/-- Tasks spawned by a done-callback of a task finishing during the drain
are drained too: they appear in a later round of the teardown. -/
theorem spawned_in_rounds (spawn : MTask → List MTask) (fuel : Nat)
    (active : List MTask) (t s : MTask) (hf : 1 < fuel) (ht : t ∈ active)
    (hs : s ∈ spawn t) :
    s ∈ (teardownRounds spawn fuel active).1.flatten := by
  obtain ⟨f, rfl⟩ : ∃ f, fuel = f + 1 := ⟨fuel - 1, by omega⟩
  have hne : ¬ active.isEmpty := by
    cases active
    · cases ht
    · simp
  have hsin : s ∈ active.flatMap spawn := List.mem_flatMap.mpr ⟨t, ht, hs⟩
  have hrec := active_in_rounds spawn f (active.flatMap spawn) s (by omega) hsin
  simp only [teardownRounds, hne, if_false, Bool.false_eq_true]
  rw [List.flatten_cons]
  exact List.mem_append.mpr (Or.inr hrec)

/-- Claim C8: on teardown the task supervisor cancels and awaits every
still-running task, re-checking for work added while draining, so that
with any done-callback spawning discipline that only ever adds finitely
chained successors and enough drain rounds, the run ends with zero tasks
remaining; every task active at teardown is cancelled and awaited in the
first round, and a successor task added by the done-callback of a
finishing task is itself cancelled and awaited in a later round. -/
theorem taskholder_teardown (spawn : MTask → List MTask) (fuel : Nat)
    (active : List MTask) (t s : MTask) :
    ((∀ a b, b ∈ spawn a → b.budget < a.budget) → maxBudget active < fuel →
      (teardownRounds spawn fuel active).2 = []) ∧
    (0 < fuel → t ∈ active → t ∈ (teardownRounds spawn fuel active).1.flatten) ∧
    (1 < fuel → t ∈ active → s ∈ spawn t →
      s ∈ (teardownRounds spawn fuel active).1.flatten) := by
  exact ⟨fun hspawn h => teardown_empties spawn hspawn fuel active h,
    fun hf ht => active_in_rounds spawn fuel active t hf ht,
    fun hf ht hs => spawned_in_rounds spawn fuel active t s hf ht hs⟩

/-- Witness for taskholder_teardown at concrete inputs: one task whose
done-callback spawns a successor; both get drained and nothing remains. -/
theorem taskholder_teardown_witness :
    (teardownRounds (fun x => if x.budget = 1 then [⟨x.id + 10, 0⟩] else []) 2 [⟨1, 1⟩]).2
      = [] ∧
    (⟨1, 1⟩ : MTask) ∈
      (teardownRounds (fun x => if x.budget = 1 then [⟨x.id + 10, 0⟩] else []) 2
        [⟨1, 1⟩]).1.flatten ∧
    (⟨11, 0⟩ : MTask) ∈
      (teardownRounds (fun x => if x.budget = 1 then [⟨x.id + 10, 0⟩] else []) 2
        [⟨1, 1⟩]).1.flatten := by
  have h := taskholder_teardown (fun x => if x.budget = 1 then [⟨x.id + 10, 0⟩] else [])
    2 [⟨1, 1⟩] ⟨1, 1⟩ ⟨11, 0⟩
  refine ⟨h.1 ?_ (by decide), h.2.1 (by decide) (by decide),
    h.2.2 (by decide) (by decide) (by decide)⟩
  intro a b hb
  by_cases ha : a.budget = 1 <;> simp [ha] at hb
  rw [hb]
  simp [ha]

end Photons
